import Mathlib

/-!
# Verification of `NumericOverflows.cpp`

Shallow embedding of the bounds-checked accumulation routines
`add_numbers` and `subtract_numbers` from `NumericOverflows.cpp`,
together with the parameter derivations of the per-type test drivers
`test_overflow` / `test_underflow`.

A C++ arithmetic type `T` is modelled as the integer interval
`[lo, hi]` of its exactly representable values, where
`lo = std::numeric_limits<T>::lowest()` and
`hi = std::numeric_limits<T>::max()`.  Every arithmetic type the
program instantiates (signed and unsigned integers, character types,
floating point) satisfies `lowest() ≤ 0 < max()`, so those two facts
are carried as fields of the model.  Arithmetic inside the interval is
exact, which matches the C++ semantics for all integer types; the
floating-point instantiations additionally round, which is outside
this model (and explicitly carved out by the spec's
"subject to the type's rounding" clause).

Both routines are total functions returning a `CalcResult`; no
outcome is signalled by an exception, matching the source, which has
no `throw` and reports every outcome through the `success` flag.
-/

namespace NumericOverflows

/-- Model of a C++ arithmetic type `T`: the interval of representable
values.  `lo` is `std::numeric_limits<T>::lowest()`, `hi` is
`std::numeric_limits<T>::max()`.  All types instantiated by the
program satisfy `lo ≤ 0 < hi`. -/
structure NumT where
  lo : Int
  hi : Int
  lo_nonpos : lo ≤ 0
  hi_pos : 0 < hi

/-- `CalcResult` from the source: the running total and a
success/failure flag.  `value` is the result (or the last safe value
if the loop stopped early); `success` is `true` iff all steps
completed safely. -/
structure CalcResult where
  value : Int
  success : Bool
  deriving Repr, DecidableEq

/-- The loop body of `add_numbers`, recursing on the remaining number
of iterations (C++ `for (i = 0; i < steps; ++i)`).  Each iteration
pre-checks the type's limits before adding:
`increment > 0` fails when `out.value > maxVal - increment`;
`increment < 0` fails when `out.value < lowVal - increment`;
otherwise `out.value += increment`. -/
def add_loop (T : NumT) (increment : Int) : Nat → Int → CalcResult
  | 0, v => ⟨v, true⟩
  | n + 1, v =>
    if 0 < increment then
      if T.hi - increment < v then ⟨v, false⟩
      else add_loop T increment n (v + increment)
    else if increment < 0 then
      if v < T.lo - increment then ⟨v, false⟩
      else add_loop T increment n (v + increment)
    else add_loop T increment n (v + increment)

/-- `add_numbers<T>(start, increment, steps)` from the source:
running total starts at `start`, then `steps` guarded additions. -/
def add_numbers (T : NumT) (start increment : Int) (steps : Nat) : CalcResult :=
  add_loop T increment steps start

/-- The loop body of `subtract_numbers`.  Each iteration pre-checks:
`decrement > 0` fails when `out.value < lowVal + decrement`;
`decrement < 0` fails when `out.value > maxVal + decrement`;
otherwise `out.value -= decrement`. -/
def subtract_loop (T : NumT) (decrement : Int) : Nat → Int → CalcResult
  | 0, v => ⟨v, true⟩
  | n + 1, v =>
    if 0 < decrement then
      if v < T.lo + decrement then ⟨v, false⟩
      else subtract_loop T decrement n (v - decrement)
    else if decrement < 0 then
      if T.hi + decrement < v then ⟨v, false⟩
      else subtract_loop T decrement n (v - decrement)
    else subtract_loop T decrement n (v - decrement)

/-- `subtract_numbers<T>(start, decrement, steps)` from the source. -/
def subtract_numbers (T : NumT) (start decrement : Int) (steps : Nat) : CalcResult :=
  subtract_loop T decrement steps start

/-- The guard of one `add_numbers` iteration, as a boolean:
`true` iff the iteration does not take an early-return branch. -/
def addSafe (T : NumT) (increment v : Int) : Bool :=
  if 0 < increment then decide (v ≤ T.hi - increment)
  else if increment < 0 then decide (T.lo - increment ≤ v)
  else true

/-- The guard of one `subtract_numbers` iteration, as a boolean. -/
def subSafe (T : NumT) (decrement v : Int) : Bool :=
  if 0 < decrement then decide (T.lo + decrement ≤ v)
  else if decrement < 0 then decide (v ≤ T.hi + decrement)
  else true

/-- Every `T`-valued arithmetic result the body of `add_numbers`
computes, in execution order, when run for `n` iterations from
running total `v`: in each iteration, the guard expression
(`maxVal - increment` when `increment > 0`, `lowVal - increment` when
`increment < 0`) and, when the iteration accumulates, the new total
`v + increment`.  Used to state that no operation inside the routine
ever leaves the type's range. -/
def addOps (T : NumT) (increment : Int) : Nat → Int → List Int
  | 0, _ => []
  | n + 1, v =>
    if 0 < increment then
      if T.hi - increment < v then [T.hi - increment]
      else (T.hi - increment) :: (v + increment) :: addOps T increment n (v + increment)
    else if increment < 0 then
      if v < T.lo - increment then [T.lo - increment]
      else (T.lo - increment) :: (v + increment) :: addOps T increment n (v + increment)
    else (v + increment) :: addOps T increment n (v + increment)

/-- Mirror of `addOps` for `subtract_numbers`: the guard expression is
`lowVal + decrement` (`decrement > 0`) or `maxVal + decrement`
(`decrement < 0`), and accumulation computes `v - decrement`. -/
def subOps (T : NumT) (decrement : Int) : Nat → Int → List Int
  | 0, _ => []
  | n + 1, v =>
    if 0 < decrement then
      if v < T.lo + decrement then [T.lo + decrement]
      else (T.lo + decrement) :: (v - decrement) :: subOps T decrement n (v - decrement)
    else if decrement < 0 then
      if T.hi + decrement < v then [T.hi + decrement]
      else (T.hi + decrement) :: (v - decrement) :: subOps T decrement n (v - decrement)
    else (v - decrement) :: subOps T decrement n (v - decrement)

/-- The guard expressions one `add_numbers` iteration computes
(independent of the running total). -/
def addGuardOps (T : NumT) (increment : Int) : List Int :=
  if 0 < increment then [T.hi - increment]
  else if increment < 0 then [T.lo - increment]
  else []

/-- The guard expressions one `subtract_numbers` iteration computes. -/
def subGuardOps (T : NumT) (decrement : Int) : List Int :=
  if 0 < decrement then [T.lo + decrement]
  else if decrement < 0 then [T.hi + decrement]
  else []

/-- `steps` from the `START DO NOT CHANGE` block of both test
drivers. -/
def driver_steps : Nat := 5

/-- `increment` / `decrement` of the test drivers:
`std::numeric_limits<T>::max() / steps`.  C++ integer division
truncates toward zero; since `T.hi > 0` this agrees with Lean's `Int`
division used here. -/
def driver_increment (T : NumT) : Int := T.hi / 5

/-- First run of `test_overflow`: `add_numbers<T>(0, maxT/5, 5)`. -/
def test_overflow_first (T : NumT) : CalcResult :=
  add_numbers T 0 (driver_increment T) driver_steps

/-- Second run of `test_overflow`: `add_numbers<T>(0, maxT/5, 5+1)`,
the run the driver reports as "Overflow" when `success` is false. -/
def test_overflow_second (T : NumT) : CalcResult :=
  add_numbers T 0 (driver_increment T) (driver_steps + 1)

/-- First run of `test_underflow`:
`subtract_numbers<T>(maxT, maxT/5, 5)`. -/
def test_underflow_first (T : NumT) : CalcResult :=
  subtract_numbers T T.hi (driver_increment T) driver_steps

/-- Second run of `test_underflow`:
`subtract_numbers<T>(maxT, maxT/5, 5+1)`, the run the driver reports
as "Underflow" when `success` is false. -/
def test_underflow_second (T : NumT) : CalcResult :=
  subtract_numbers T T.hi (driver_increment T) (driver_steps + 1)

/-- Signed 8-bit model (`char` on the test platform):
`lowest = -128`, `max = 127`. -/
def I8 : NumT := ⟨-128, 127, by decide, by decide⟩

/-- Unsigned 8-bit model (`unsigned char`): `lowest = 0`, `max = 255`. -/
def U8 : NumT := ⟨0, 255, by decide, by decide⟩

/-- 32-bit signed model (`int`): `lowest = -2^31`, `max = 2^31 - 1`. -/
def I32 : NumT := ⟨-2147483648, 2147483647, by decide, by decide⟩

/-! ## Structural lemmas about the two loops -/

theorem add_loop_succ (T : NumT) (increment : Int) (n : Nat) (v : Int) :
    add_loop T increment (n + 1) v =
      if addSafe T increment v then add_loop T increment n (v + increment)
      else ⟨v, false⟩ := by
  by_cases h1 : 0 < increment
  · by_cases h2 : T.hi - increment < v
    · have hs : addSafe T increment v = false := by
        simp only [addSafe, if_pos h1, decide_eq_false_iff_not]; omega
      simp [add_loop, h1, h2, hs]
    · have hs : addSafe T increment v = true := by
        simp only [addSafe, if_pos h1, decide_eq_true_eq]; omega
      simp [add_loop, h1, h2, hs]
  · by_cases h3 : increment < 0
    · by_cases h2 : v < T.lo - increment
      · have hs : addSafe T increment v = false := by
          simp only [addSafe, if_neg h1, if_pos h3, decide_eq_false_iff_not]; omega
        simp [add_loop, h1, h3, h2, hs]
      · have hs : addSafe T increment v = true := by
          simp only [addSafe, if_neg h1, if_pos h3, decide_eq_true_eq]; omega
        simp [add_loop, h1, h3, h2, hs]
    · have hs : addSafe T increment v = true := by
        simp only [addSafe, if_neg h1, if_neg h3]
      simp [add_loop, h1, h3, hs]

theorem subtract_loop_succ (T : NumT) (decrement : Int) (n : Nat) (v : Int) :
    subtract_loop T decrement (n + 1) v =
      if subSafe T decrement v then subtract_loop T decrement n (v - decrement)
      else ⟨v, false⟩ := by
  by_cases h1 : 0 < decrement
  · by_cases h2 : v < T.lo + decrement
    · have hs : subSafe T decrement v = false := by
        simp only [subSafe, if_pos h1, decide_eq_false_iff_not]; omega
      simp [subtract_loop, h1, h2, hs]
    · have hs : subSafe T decrement v = true := by
        simp only [subSafe, if_pos h1, decide_eq_true_eq]; omega
      simp [subtract_loop, h1, h2, hs]
  · by_cases h3 : decrement < 0
    · by_cases h2 : T.hi + decrement < v
      · have hs : subSafe T decrement v = false := by
          simp only [subSafe, if_neg h1, if_pos h3, decide_eq_false_iff_not]; omega
        simp [subtract_loop, h1, h3, h2, hs]
      · have hs : subSafe T decrement v = true := by
          simp only [subSafe, if_neg h1, if_pos h3, decide_eq_true_eq]; omega
        simp [subtract_loop, h1, h3, h2, hs]
    · have hs : subSafe T decrement v = true := by
        simp only [subSafe, if_neg h1, if_neg h3]
      simp [subtract_loop, h1, h3, hs]

theorem addOps_succ (T : NumT) (increment : Int) (n : Nat) (v : Int) :
    addOps T increment (n + 1) v =
      addGuardOps T increment ++
        (if addSafe T increment v then
          (v + increment) :: addOps T increment n (v + increment)
        else []) := by
  by_cases h1 : 0 < increment
  · by_cases h2 : T.hi - increment < v
    · have hs : addSafe T increment v = false := by
        simp only [addSafe, if_pos h1, decide_eq_false_iff_not]; omega
      simp [addOps, addGuardOps, h1, h2, hs]
    · have hs : addSafe T increment v = true := by
        simp only [addSafe, if_pos h1, decide_eq_true_eq]; omega
      simp [addOps, addGuardOps, h1, h2, hs]
  · by_cases h3 : increment < 0
    · by_cases h2 : v < T.lo - increment
      · have hs : addSafe T increment v = false := by
          simp only [addSafe, if_neg h1, if_pos h3, decide_eq_false_iff_not]; omega
        simp [addOps, addGuardOps, h1, h3, h2, hs]
      · have hs : addSafe T increment v = true := by
          simp only [addSafe, if_neg h1, if_pos h3, decide_eq_true_eq]; omega
        simp [addOps, addGuardOps, h1, h3, h2, hs]
    · have hs : addSafe T increment v = true := by
        simp only [addSafe, if_neg h1, if_neg h3]
      simp [addOps, addGuardOps, h1, h3, hs]

theorem subOps_succ (T : NumT) (decrement : Int) (n : Nat) (v : Int) :
    subOps T decrement (n + 1) v =
      subGuardOps T decrement ++
        (if subSafe T decrement v then
          (v - decrement) :: subOps T decrement n (v - decrement)
        else []) := by
  by_cases h1 : 0 < decrement
  · by_cases h2 : v < T.lo + decrement
    · have hs : subSafe T decrement v = false := by
        simp only [subSafe, if_pos h1, decide_eq_false_iff_not]; omega
      simp [subOps, subGuardOps, h1, h2, hs]
    · have hs : subSafe T decrement v = true := by
        simp only [subSafe, if_pos h1, decide_eq_true_eq]; omega
      simp [subOps, subGuardOps, h1, h2, hs]
  · by_cases h3 : decrement < 0
    · by_cases h2 : T.hi + decrement < v
      · have hs : subSafe T decrement v = false := by
          simp only [subSafe, if_neg h1, if_pos h3, decide_eq_false_iff_not]; omega
        simp [subOps, subGuardOps, h1, h3, h2, hs]
      · have hs : subSafe T decrement v = true := by
          simp only [subSafe, if_neg h1, if_pos h3, decide_eq_true_eq]; omega
        simp [subOps, subGuardOps, h1, h3, h2, hs]
    · have hs : subSafe T decrement v = true := by
        simp only [subSafe, if_neg h1, if_neg h3]
      simp [subOps, subGuardOps, h1, h3, hs]

/-- `addSafe` is exactly the condition under which one iteration of
`add_numbers` does not take an early-return branch, and when it holds
the updated total stays inside the type's range. -/
theorem addSafe_true_bounds (T : NumT) (increment v : Int)
    (hs : addSafe T increment v = true) (h1 : T.lo ≤ v) (h2 : v ≤ T.hi) :
    T.lo ≤ v + increment ∧ v + increment ≤ T.hi := by
  by_cases hp : 0 < increment
  · have := hs
    simp only [addSafe, if_pos hp, decide_eq_true_eq] at this
    omega
  · by_cases hn : increment < 0
    · have := hs
      simp only [addSafe, if_neg hp, if_pos hn, decide_eq_true_eq] at this
      omega
    · omega

/-- Mirror of `addSafe_true_bounds` for `subtract_numbers`. -/
theorem subSafe_true_bounds (T : NumT) (decrement v : Int)
    (hs : subSafe T decrement v = true) (h1 : T.lo ≤ v) (h2 : v ≤ T.hi) :
    T.lo ≤ v - decrement ∧ v - decrement ≤ T.hi := by
  by_cases hp : 0 < decrement
  · have := hs
    simp only [subSafe, if_pos hp, decide_eq_true_eq] at this
    omega
  · by_cases hn : decrement < 0
    · have := hs
      simp only [subSafe, if_neg hp, if_pos hn, decide_eq_true_eq] at this
      omega
    · omega

/-- If every partial sum `v + step*i` (`i = 0..n`) is representable,
the add loop completes all `n` iterations and returns the exact sum. -/
theorem add_loop_exact (T : NumT) (step : Int) :
    ∀ (n : Nat) (v : Int),
      (∀ i : Nat, i ≤ n → T.lo ≤ v + step * (i : Int) ∧ v + step * (i : Int) ≤ T.hi) →
      add_loop T step n v = ⟨v + step * (n : Int), true⟩ := by
  intro n
  induction n with
  | zero => intro v _; simp [add_loop]
  | succ n ih =>
    intro v h
    rw [add_loop_succ]
    have h0 := h 0 (by omega)
    have h1 := h 1 (by omega)
    push_cast at h0 h1
    have hs : addSafe T step v = true := by
      by_cases hp : 0 < step
      · simp only [addSafe, if_pos hp, decide_eq_true_eq]
        omega
      · by_cases hn : step < 0
        · simp only [addSafe, if_neg hp, if_pos hn, decide_eq_true_eq]
          omega
        · simp [addSafe, hp, hn]
    rw [if_pos hs]
    have h' : ∀ i : Nat, i ≤ n →
        T.lo ≤ (v + step) + step * (i : Int) ∧ (v + step) + step * (i : Int) ≤ T.hi := by
      intro i hi
      have := h (i + 1) (by omega)
      push_cast at this
      have e : v + step * ((i : Int) + 1) = (v + step) + step * (i : Int) := by ring
      rw [e] at this
      exact this
    rw [ih (v + step) h']
    congr 1
    push_cast
    ring

/-- Mirror of `add_loop_exact` for the subtract loop. -/
theorem subtract_loop_exact (T : NumT) (step : Int) :
    ∀ (n : Nat) (v : Int),
      (∀ i : Nat, i ≤ n → T.lo ≤ v - step * (i : Int) ∧ v - step * (i : Int) ≤ T.hi) →
      subtract_loop T step n v = ⟨v - step * (n : Int), true⟩ := by
  intro n
  induction n with
  | zero => intro v _; simp [subtract_loop]
  | succ n ih =>
    intro v h
    rw [subtract_loop_succ]
    have h0 := h 0 (by omega)
    have h1 := h 1 (by omega)
    push_cast at h0 h1
    have hs : subSafe T step v = true := by
      by_cases hp : 0 < step
      · simp only [subSafe, if_pos hp, decide_eq_true_eq]
        omega
      · by_cases hn : step < 0
        · simp only [subSafe, if_neg hp, if_pos hn, decide_eq_true_eq]
          omega
        · simp [subSafe, hp, hn]
    rw [if_pos hs]
    have h' : ∀ i : Nat, i ≤ n →
        T.lo ≤ (v - step) - step * (i : Int) ∧ (v - step) - step * (i : Int) ≤ T.hi := by
      intro i hi
      have := h (i + 1) (by omega)
      push_cast at this
      have e : v - step * ((i : Int) + 1) = (v - step) - step * (i : Int) := by ring
      rw [e] at this
      exact this
    rw [ih (v - step) h']
    congr 1
    push_cast
    ring

/-- If iterations `0..k-1` pass the guard and iteration `k` fails it
(`k < n`), the add loop returns the total reached before iteration
`k`, flagged as failure. -/
theorem add_loop_stops (T : NumT) (step : Int) :
    ∀ (k n : Nat) (v : Int),
      (∀ i : Nat, i < k → addSafe T step (v + step * (i : Int)) = true) →
      addSafe T step (v + step * (k : Int)) = false →
      k < n →
      add_loop T step n v = ⟨v + step * (k : Int), false⟩ := by
  intro k
  induction k with
  | zero =>
    intro n v _ hk hn
    obtain ⟨m, rfl⟩ : ∃ m, n = m + 1 := ⟨n - 1, by omega⟩
    rw [add_loop_succ]
    simp only [Nat.cast_zero, mul_zero, add_zero] at hk ⊢
    simp [hk]
  | succ k ih =>
    intro n v hsafe hk hn
    obtain ⟨m, rfl⟩ : ∃ m, n = m + 1 := ⟨n - 1, by omega⟩
    rw [add_loop_succ]
    have h0 : addSafe T step v = true := by
      have := hsafe 0 (by omega)
      simpa using this
    rw [if_pos h0]
    have hsafe' : ∀ i : Nat, i < k →
        addSafe T step ((v + step) + step * (i : Int)) = true := by
      intro i hi
      have := hsafe (i + 1) (by omega)
      have e : v + step * ((i : Nat) + 1 : Nat) = (v + step) + step * (i : Int) := by
        push_cast; ring
      rw [e] at this
      exact this
    have hk' : addSafe T step ((v + step) + step * (k : Int)) = false := by
      have e : v + step * ((k : Nat) + 1 : Nat) = (v + step) + step * (k : Int) := by
        push_cast; ring
      rw [e] at hk
      exact hk
    rw [ih m (v + step) hsafe' hk' (by omega)]
    congr 1
    push_cast
    ring

/-- Mirror of `add_loop_stops` for the subtract loop. -/
theorem subtract_loop_stops (T : NumT) (step : Int) :
    ∀ (k n : Nat) (v : Int),
      (∀ i : Nat, i < k → subSafe T step (v - step * (i : Int)) = true) →
      subSafe T step (v - step * (k : Int)) = false →
      k < n →
      subtract_loop T step n v = ⟨v - step * (k : Int), false⟩ := by
  intro k
  induction k with
  | zero =>
    intro n v _ hk hn
    obtain ⟨m, rfl⟩ : ∃ m, n = m + 1 := ⟨n - 1, by omega⟩
    rw [subtract_loop_succ]
    simp only [Nat.cast_zero, mul_zero, sub_zero] at hk ⊢
    simp [hk]
  | succ k ih =>
    intro n v hsafe hk hn
    obtain ⟨m, rfl⟩ : ∃ m, n = m + 1 := ⟨n - 1, by omega⟩
    rw [subtract_loop_succ]
    have h0 : subSafe T step v = true := by
      have := hsafe 0 (by omega)
      simpa using this
    rw [if_pos h0]
    have hsafe' : ∀ i : Nat, i < k →
        subSafe T step ((v - step) - step * (i : Int)) = true := by
      intro i hi
      have := hsafe (i + 1) (by omega)
      have e : v - step * ((i : Nat) + 1 : Nat) = (v - step) - step * (i : Int) := by
        push_cast; ring
      rw [e] at this
      exact this
    have hk' : subSafe T step ((v - step) - step * (k : Int)) = false := by
      have e : v - step * ((k : Nat) + 1 : Nat) = (v - step) - step * (k : Int) := by
        push_cast; ring
      rw [e] at hk
      exact hk
    rw [ih m (v - step) hsafe' hk' (by omega)]
    congr 1
    push_cast
    ring

/-- Under the same first-violation hypotheses, running the add loop
for `n` iterations performs exactly the operations of running it for
`k + 1` iterations: nothing is computed beyond the rejected step. -/
theorem addOps_stops (T : NumT) (step : Int) :
    ∀ (k n : Nat) (v : Int),
      (∀ i : Nat, i < k → addSafe T step (v + step * (i : Int)) = true) →
      addSafe T step (v + step * (k : Int)) = false →
      k < n →
      addOps T step n v = addOps T step (k + 1) v := by
  intro k
  induction k with
  | zero =>
    intro n v _ hk hn
    obtain ⟨m, rfl⟩ : ∃ m, n = m + 1 := ⟨n - 1, by omega⟩
    simp only [Nat.cast_zero, mul_zero, add_zero] at hk
    rw [addOps_succ, addOps_succ, hk]
    simp
  | succ k ih =>
    intro n v hsafe hk hn
    obtain ⟨m, rfl⟩ : ∃ m, n = m + 1 := ⟨n - 1, by omega⟩
    have h0 : addSafe T step v = true := by
      have := hsafe 0 (by omega)
      simpa using this
    rw [addOps_succ, addOps_succ, if_pos h0, if_pos h0]
    have hsafe' : ∀ i : Nat, i < k →
        addSafe T step ((v + step) + step * (i : Int)) = true := by
      intro i hi
      have := hsafe (i + 1) (by omega)
      have e : v + step * ((i : Nat) + 1 : Nat) = (v + step) + step * (i : Int) := by
        push_cast; ring
      rw [e] at this
      exact this
    have hk' : addSafe T step ((v + step) + step * (k : Int)) = false := by
      have e : v + step * ((k : Nat) + 1 : Nat) = (v + step) + step * (k : Int) := by
        push_cast; ring
      rw [e] at hk
      exact hk
    rw [ih m (v + step) hsafe' hk' (by omega)]

/-- Mirror of `addOps_stops` for the subtract loop. -/
theorem subOps_stops (T : NumT) (step : Int) :
    ∀ (k n : Nat) (v : Int),
      (∀ i : Nat, i < k → subSafe T step (v - step * (i : Int)) = true) →
      subSafe T step (v - step * (k : Int)) = false →
      k < n →
      subOps T step n v = subOps T step (k + 1) v := by
  intro k
  induction k with
  | zero =>
    intro n v _ hk hn
    obtain ⟨m, rfl⟩ : ∃ m, n = m + 1 := ⟨n - 1, by omega⟩
    simp only [Nat.cast_zero, mul_zero, sub_zero] at hk
    rw [subOps_succ, subOps_succ, hk]
    simp
  | succ k ih =>
    intro n v hsafe hk hn
    obtain ⟨m, rfl⟩ : ∃ m, n = m + 1 := ⟨n - 1, by omega⟩
    have h0 : subSafe T step v = true := by
      have := hsafe 0 (by omega)
      simpa using this
    rw [subOps_succ, subOps_succ, if_pos h0, if_pos h0]
    have hsafe' : ∀ i : Nat, i < k →
        subSafe T step ((v - step) - step * (i : Int)) = true := by
      intro i hi
      have := hsafe (i + 1) (by omega)
      have e : v - step * ((i : Nat) + 1 : Nat) = (v - step) - step * (i : Int) := by
        push_cast; ring
      rw [e] at this
      exact this
    have hk' : subSafe T step ((v - step) - step * (k : Int)) = false := by
      have e : v - step * ((k : Nat) + 1 : Nat) = (v - step) - step * (k : Int) := by
        push_cast; ring
      rw [e] at hk
      exact hk
    rw [ih m (v - step) hsafe' hk' (by omega)]

/-- With a zero step every iteration passes the guard and leaves the
total unchanged. -/
theorem add_loop_zero (T : NumT) :
    ∀ (n : Nat) (v : Int), add_loop T 0 n v = ⟨v, true⟩ := by
  intro n
  induction n with
  | zero => intro v; rfl
  | succ n ih =>
    intro v
    rw [add_loop_succ]
    have hs : addSafe T 0 v = true := by simp [addSafe]
    rw [if_pos hs, add_zero, ih v]

/-- Mirror of `add_loop_zero` for the subtract loop. -/
theorem subtract_loop_zero (T : NumT) :
    ∀ (n : Nat) (v : Int), subtract_loop T 0 n v = ⟨v, true⟩ := by
  intro n
  induction n with
  | zero => intro v; rfl
  | succ n ih =>
    intro v
    rw [subtract_loop_succ]
    have hs : subSafe T 0 v = true := by simp [subSafe]
    rw [if_pos hs, sub_zero, ih v]

/-- The add loop's result value is always a partial sum `v + step*i`
with `i ≤ n`, and stays inside the type's range whenever the initial
total does. -/
theorem add_loop_reaches (T : NumT) (step : Int) :
    ∀ (n : Nat) (v : Int), T.lo ≤ v → v ≤ T.hi →
      ∃ i : Nat, i ≤ n ∧ (add_loop T step n v).value = v + step * (i : Int) ∧
        T.lo ≤ (add_loop T step n v).value ∧ (add_loop T step n v).value ≤ T.hi := by
  intro n
  induction n with
  | zero =>
    intro v h1 h2
    exact ⟨0, by omega, by simp [add_loop], by simpa [add_loop] using h1,
      by simpa [add_loop] using h2⟩
  | succ n ih =>
    intro v h1 h2
    rw [add_loop_succ]
    cases hs : addSafe T step v with
    | false =>
      refine ⟨0, by omega, ?_, ?_, ?_⟩ <;> simp [h1, h2]
    | true =>
      have hb := addSafe_true_bounds T step v hs h1 h2
      obtain ⟨i, hile, he, hlo, hhi⟩ := ih (v + step) hb.1 hb.2
      refine ⟨i + 1, by omega, ?_, by simpa using hlo, by simpa using hhi⟩
      simp only [if_true]
      rw [he]
      push_cast
      ring

/-- Mirror of `add_loop_reaches` for the subtract loop. -/
theorem subtract_loop_reaches (T : NumT) (step : Int) :
    ∀ (n : Nat) (v : Int), T.lo ≤ v → v ≤ T.hi →
      ∃ i : Nat, i ≤ n ∧ (subtract_loop T step n v).value = v - step * (i : Int) ∧
        T.lo ≤ (subtract_loop T step n v).value ∧ (subtract_loop T step n v).value ≤ T.hi := by
  intro n
  induction n with
  | zero =>
    intro v h1 h2
    exact ⟨0, by omega, by simp [subtract_loop], by simpa [subtract_loop] using h1,
      by simpa [subtract_loop] using h2⟩
  | succ n ih =>
    intro v h1 h2
    rw [subtract_loop_succ]
    cases hs : subSafe T step v with
    | false =>
      refine ⟨0, by omega, ?_, ?_, ?_⟩ <;> simp [h1, h2]
    | true =>
      have hb := subSafe_true_bounds T step v hs h1 h2
      obtain ⟨i, hile, he, hlo, hhi⟩ := ih (v - step) hb.1 hb.2
      refine ⟨i + 1, by omega, ?_, by simpa using hlo, by simpa using hhi⟩
      simp only [if_true]
      rw [he]
      push_cast
      ring

/-- Every arithmetic result the add loop computes — guard expressions
included — lies inside the type's range, provided the start and the
step are themselves representable. -/
theorem addOps_bounded (T : NumT) (step : Int)
    (hp1 : T.lo ≤ step) (hp2 : step ≤ T.hi) :
    ∀ (n : Nat) (v : Int), T.lo ≤ v → v ≤ T.hi →
      ∀ x ∈ addOps T step n v, T.lo ≤ x ∧ x ≤ T.hi := by
  have hlo := T.lo_nonpos
  have hhi := T.hi_pos
  intro n
  induction n with
  | zero => intro v _ _ x hx; simp [addOps] at hx
  | succ n ih =>
    intro v h1 h2 x hx
    rw [addOps_succ] at hx
    rcases List.mem_append.mp hx with hg | hrest
    · by_cases hq1 : 0 < step
      · simp only [addGuardOps, if_pos hq1, List.mem_singleton] at hg
        omega
      · by_cases hq3 : step < 0
        · simp only [addGuardOps, if_neg hq1, if_pos hq3, List.mem_singleton] at hg
          omega
        · simp [addGuardOps, hq1, hq3] at hg
    · cases hs : addSafe T step v with
      | false => rw [hs] at hrest; simp at hrest
      | true =>
        rw [hs] at hrest
        have hb := addSafe_true_bounds T step v hs h1 h2
        simp only [if_true, List.mem_cons] at hrest
        rcases hrest with rfl | hrest
        · exact hb
        · exact ih (v + step) hb.1 hb.2 x hrest

/-- Mirror of `addOps_bounded` for the subtract loop. -/
theorem subOps_bounded (T : NumT) (step : Int)
    (hp1 : T.lo ≤ step) (hp2 : step ≤ T.hi) :
    ∀ (n : Nat) (v : Int), T.lo ≤ v → v ≤ T.hi →
      ∀ x ∈ subOps T step n v, T.lo ≤ x ∧ x ≤ T.hi := by
  have hlo := T.lo_nonpos
  have hhi := T.hi_pos
  intro n
  induction n with
  | zero => intro v _ _ x hx; simp [subOps] at hx
  | succ n ih =>
    intro v h1 h2 x hx
    rw [subOps_succ] at hx
    rcases List.mem_append.mp hx with hg | hrest
    · by_cases hq1 : 0 < step
      · simp only [subGuardOps, if_pos hq1, List.mem_singleton] at hg
        omega
      · by_cases hq3 : step < 0
        · simp only [subGuardOps, if_neg hq1, if_pos hq3, List.mem_singleton] at hg
          omega
        · simp [subGuardOps, hq1, hq3] at hg
    · cases hs : subSafe T step v with
      | false => rw [hs] at hrest; simp at hrest
      | true =>
        rw [hs] at hrest
        have hb := subSafe_true_bounds T step v hs h1 h2
        simp only [if_true, List.mem_cons] at hrest
        rcases hrest with rfl | hrest
        · exact hb
        · exact ih (v - step) hb.1 hb.2 x hrest

/-- The subtract guard at `step` is the add guard at `-step`. -/
theorem subSafe_eq_addSafe_neg (T : NumT) (step v : Int) :
    subSafe T step v = addSafe T (-step) v := by
  rcases lt_trichotomy step 0 with h | rfl | h
  · have h1 : ¬ 0 < step := by omega
    have h2 : 0 < -step := by omega
    simp only [subSafe, addSafe, if_neg h1, if_pos h, if_pos h2]
    rw [sub_neg_eq_add]
  · simp [subSafe, addSafe]
  · have h1 : ¬ step < 0 := by omega
    have h2 : ¬ 0 < -step := by omega
    have h3 : -step < 0 := by omega
    simp only [subSafe, addSafe, if_pos h, if_neg h2, if_pos h3]
    rw [sub_neg_eq_add]

/-- Iteration for iteration, subtracting `step` is adding `-step`. -/
theorem subtract_loop_eq_add_loop_neg (T : NumT) (step : Int) :
    ∀ (n : Nat) (v : Int), subtract_loop T step n v = add_loop T (-step) n v := by
  intro n
  induction n with
  | zero => intro v; rfl
  | succ n ih =>
    intro v
    rw [subtract_loop_succ, add_loop_succ, subSafe_eq_addSafe_neg]
    cases addSafe T (-step) v with
    | false => rfl
    | true => simp only [if_true, sub_eq_add_neg, ih]

/-- Once the add loop has failed, running it longer changes nothing:
the loop deterministically hits the same first violation. -/
theorem add_loop_fail_stable (T : NumT) (step : Int) :
    ∀ (n : Nat) (v : Int), (add_loop T step n v).success = false →
      ∀ m : Nat, n ≤ m → add_loop T step m v = add_loop T step n v := by
  intro n
  induction n with
  | zero => intro v h; simp [add_loop] at h
  | succ n ih =>
    intro v h m hm
    obtain ⟨m', rfl⟩ : ∃ m', m = m' + 1 := ⟨m - 1, by omega⟩
    rw [add_loop_succ] at h ⊢
    rw [add_loop_succ]
    cases hs : addSafe T step v with
    | false => simp [hs]
    | true =>
      rw [hs] at h
      simp only [if_true] at h ⊢
      exact ih (v + step) h m' (by omega)

/-- Mirror of `add_loop_fail_stable` for the subtract loop. -/
theorem subtract_loop_fail_stable (T : NumT) (step : Int) :
    ∀ (n : Nat) (v : Int), (subtract_loop T step n v).success = false →
      ∀ m : Nat, n ≤ m → subtract_loop T step m v = subtract_loop T step n v := by
  intro n
  induction n with
  | zero => intro v h; simp [subtract_loop] at h
  | succ n ih =>
    intro v h m hm
    obtain ⟨m', rfl⟩ : ∃ m', m = m' + 1 := ⟨m - 1, by omega⟩
    rw [subtract_loop_succ] at h ⊢
    rw [subtract_loop_succ]
    cases hs : subSafe T step v with
    | false => simp [hs]
    | true =>
      rw [hs] at h
      simp only [if_true] at h ⊢
      exact ih (v - step) h m' (by omega)

/-- A successful run of `a` iterations followed by `b` more is the
same as `b` iterations from the reached value. -/
theorem add_loop_compose (T : NumT) (step : Int) :
    ∀ (a : Nat) (v : Int), (add_loop T step a v).success = true →
      ∀ b : Nat, add_loop T step (a + b) v =
        add_loop T step b (add_loop T step a v).value := by
  intro a
  induction a with
  | zero => intro v _ b; simp [add_loop, Nat.zero_add]
  | succ a ih =>
    intro v h b
    have e : a + 1 + b = (a + b) + 1 := by omega
    rw [add_loop_succ] at h
    rw [e, add_loop_succ, add_loop_succ]
    cases hs : addSafe T step v with
    | false => rw [hs] at h; simp at h
    | true =>
      rw [hs] at h
      simp only [if_true] at h ⊢
      exact ih (v + step) h b

/-- Mirror of `add_loop_compose` for the subtract loop. -/
theorem subtract_loop_compose (T : NumT) (step : Int) :
    ∀ (a : Nat) (v : Int), (subtract_loop T step a v).success = true →
      ∀ b : Nat, subtract_loop T step (a + b) v =
        subtract_loop T step b (subtract_loop T step a v).value := by
  intro a
  induction a with
  | zero => intro v _ b; simp [subtract_loop, Nat.zero_add]
  | succ a ih =>
    intro v h b
    have e : a + 1 + b = (a + b) + 1 := by omega
    rw [subtract_loop_succ] at h
    rw [e, subtract_loop_succ, subtract_loop_succ]
    cases hs : subSafe T step v with
    | false => rw [hs] at h; simp at h
    | true =>
      rw [hs] at h
      simp only [if_true] at h ⊢
      exact ih (v - step) h b

/-! ## The claims -/

/-- C1: for every numeric type `T` and every `start`, `step`, `count`
such that every partial sum `start + step*i` (`i = 0..count`) is
representable in `T`, `add_numbers(start, step, count)` returns
`success = true` and `value = start + step*count`; mirrored for
`subtract_numbers` with partial sums `start - step*i`. -/
theorem claim1_no_overflow_exact (T : NumT) (start step : Int) (count : Nat) :
    ((∀ i : Nat, i ≤ count →
        T.lo ≤ start + step * (i : Int) ∧ start + step * (i : Int) ≤ T.hi) →
      add_numbers T start step count = ⟨start + step * (count : Int), true⟩) ∧
    ((∀ i : Nat, i ≤ count →
        T.lo ≤ start - step * (i : Int) ∧ start - step * (i : Int) ≤ T.hi) →
      subtract_numbers T start step count = ⟨start - step * (count : Int), true⟩) :=
  ⟨fun h => add_loop_exact T step count start h,
   fun h => subtract_loop_exact T step count start h⟩

/-- Witness for C1 at the signed 8-bit type, `start = 0`, `step = 1`,
`count = 3`. -/
theorem claim1_no_overflow_exact_witness :
    add_numbers I8 0 1 3 = ⟨0 + 1 * ((3 : Nat) : Int), true⟩ ∧
    subtract_numbers I8 0 1 3 = ⟨0 - 1 * ((3 : Nat) : Int), true⟩ :=
  ⟨(claim1_no_overflow_exact I8 0 1 3).1 (by decide),
   (claim1_no_overflow_exact I8 0 1 3).2 (by decide)⟩

/-- C2: if the first unsafe step of `add_numbers(start, step, count)`
is at iteration `k` (0-indexed, `k < count`), the routine returns
`success = false` and `value = start + step*k`, and performs no
operation beyond iteration `k` (its operation trace equals that of a
`k+1`-iteration run); mirrored for `subtract_numbers`. -/
theorem claim2_first_violation_stop (T : NumT) (start step : Int) (count k : Nat) :
    ((∀ i : Nat, i < k → addSafe T step (start + step * (i : Int)) = true) →
      addSafe T step (start + step * (k : Int)) = false → k < count →
      add_numbers T start step count = ⟨start + step * (k : Int), false⟩ ∧
      addOps T step count start = addOps T step (k + 1) start) ∧
    ((∀ i : Nat, i < k → subSafe T step (start - step * (i : Int)) = true) →
      subSafe T step (start - step * (k : Int)) = false → k < count →
      subtract_numbers T start step count = ⟨start - step * (k : Int), false⟩ ∧
      subOps T step count start = subOps T step (k + 1) start) :=
  ⟨fun hsafe hk hkc =>
    ⟨add_loop_stops T step k count start hsafe hk hkc,
     addOps_stops T step k count start hsafe hk hkc⟩,
   fun hsafe hk hkc =>
    ⟨subtract_loop_stops T step k count start hsafe hk hkc,
     subOps_stops T step k count start hsafe hk hkc⟩⟩

/-- Witness for C2 at the signed 8-bit type, `start = 0`, `step = 50`,
`count = 3`: the first unsafe step is at iteration `k = 2`
(`100 + 50 > 127`). -/
theorem claim2_first_violation_stop_witness :
    (add_numbers I8 0 50 3 = ⟨0 + 50 * ((2 : Nat) : Int), false⟩ ∧
      addOps I8 50 3 0 = addOps I8 50 (2 + 1) 0) ∧
    (subtract_numbers I8 0 50 3 = ⟨0 - 50 * ((2 : Nat) : Int), false⟩ ∧
      subOps I8 50 3 0 = subOps I8 50 (2 + 1) 0) :=
  ⟨(claim2_first_violation_stop I8 0 50 3 2).1 (by decide) (by decide) (by decide),
   (claim2_first_violation_stop I8 0 50 3 2).2 (by decide) (by decide) (by decide)⟩

/-- C3 counterexample: for the signed 8-bit type the second
subtractive run of the driver, `subtract_numbers(127, 127/5, 6)`, does
NOT exceed the representable range: after five subtractions the total
is `2`, and the sixth subtraction reaches `-23 ≥ lowest = -128`, so
the routine returns `success = true` — not the claimed
`success = false`. -/
theorem claim3_counterexample :
    (test_underflow_second I8).success = true ∧
    (test_underflow_second I8).value = -23 := by
  decide

/-- C3 (amended): for every numeric type with `25 ≤ maxT` (every type
the program instantiates), the second additive run
`add_numbers(0, maxT/5, 6)` exceeds `maxT` and returns
`success = false` with value `5*(maxT/5)`; the second subtractive run
`subtract_numbers(maxT, maxT/5, 6)` returns `success = false` (with
value `maxT - 5*(maxT/5)`) exactly when `maxT - 6*(maxT/5)` is below
`lowest` — which holds for the unsigned types, where `lowest = 0`,
but fails for the signed and floating-point types, where the run
instead succeeds with value `maxT - 6*(maxT/5)`. -/
theorem claim3_driver_second_run (T : NumT) (h : 25 ≤ T.hi) :
    test_overflow_second T = ⟨5 * driver_increment T, false⟩ ∧
    test_underflow_second T =
      (if T.hi - 6 * driver_increment T < T.lo then
        ⟨T.hi - 5 * driver_increment T, false⟩
      else ⟨T.hi - 6 * driver_increment T, true⟩) := by
  have hlo := T.lo_nonpos
  have e1 : test_overflow_second T = add_loop T (driver_increment T) 6 0 := rfl
  have e2 : test_underflow_second T = subtract_loop T (driver_increment T) 6 T.hi := rfl
  rw [e1, e2]
  set q := driver_increment T with hqdef
  have hq5 : 5 ≤ q := by rw [hqdef]; unfold driver_increment; omega
  have hqle : 5 * q ≤ T.hi := by rw [hqdef]; unfold driver_increment; omega
  have hqlt : T.hi < 5 * q + 5 := by rw [hqdef]; unfold driver_increment; omega
  have hp : 0 < q := by omega
  constructor
  · have hsafe : ∀ i : Nat, i < 5 → addSafe T q ((0 : Int) + q * (i : Int)) = true := by
      intro i hi
      simp only [addSafe, if_pos hp, decide_eq_true_eq]
      interval_cases i <;> push_cast <;> omega
    have hk : addSafe T q ((0 : Int) + q * ((5 : Nat) : Int)) = false := by
      simp only [addSafe, if_pos hp, decide_eq_false_iff_not]
      push_cast
      omega
    rw [add_loop_stops T q 5 6 0 hsafe hk (by omega)]
    congr 1
    push_cast
    ring
  · by_cases hc : T.hi - 6 * q < T.lo
    · rw [if_pos hc]
      have hsafe : ∀ i : Nat, i < 5 → subSafe T q (T.hi - q * (i : Int)) = true := by
        intro i hi
        simp only [subSafe, if_pos hp, decide_eq_true_eq]
        interval_cases i <;> push_cast <;> omega
      have hk : subSafe T q (T.hi - q * ((5 : Nat) : Int)) = false := by
        simp only [subSafe, if_pos hp, decide_eq_false_iff_not]
        push_cast
        omega
      rw [subtract_loop_stops T q 5 6 T.hi hsafe hk (by omega)]
      congr 1
      push_cast
      ring
    · rw [if_neg hc]
      have hrep : ∀ i : Nat, i ≤ 6 →
          T.lo ≤ T.hi - q * (i : Int) ∧ T.hi - q * (i : Int) ≤ T.hi := by
        intro i hi
        interval_cases i <;> push_cast <;> omega
      rw [subtract_loop_exact T q 6 T.hi hrep]
      congr 1
      push_cast
      ring

/-- Witness for the amended C3 at the unsigned 8-bit type
(`maxT = 255`): both second runs fail there. -/
theorem claim3_driver_second_run_witness :
    test_overflow_second U8 = ⟨5 * driver_increment U8, false⟩ ∧
    test_underflow_second U8 =
      (if U8.hi - 6 * driver_increment U8 < U8.lo then
        ⟨U8.hi - 5 * driver_increment U8, false⟩
      else ⟨U8.hi - 6 * driver_increment U8, true⟩) :=
  claim3_driver_second_run U8 (by decide)

/-- C4: for every numeric type `T` and every representable `start`
and any `step`, `count`, the `value` field returned by `add_numbers`
(resp. `subtract_numbers`) equals `start + step*i`
(resp. `start - step*i`) for some `i ≤ count`, and always lies inside
`T`'s representable range. -/
theorem claim4_value_reachable (T : NumT) (start step : Int) (count : Nat)
    (h1 : T.lo ≤ start) (h2 : start ≤ T.hi) :
    ((∃ i : Nat, i ≤ count ∧
        (add_numbers T start step count).value = start + step * (i : Int)) ∧
      T.lo ≤ (add_numbers T start step count).value ∧
      (add_numbers T start step count).value ≤ T.hi) ∧
    ((∃ i : Nat, i ≤ count ∧
        (subtract_numbers T start step count).value = start - step * (i : Int)) ∧
      T.lo ≤ (subtract_numbers T start step count).value ∧
      (subtract_numbers T start step count).value ≤ T.hi) := by
  obtain ⟨i, hi, he, hb1, hb2⟩ := add_loop_reaches T step count start h1 h2
  obtain ⟨j, hj, he', hb1', hb2'⟩ := subtract_loop_reaches T step count start h1 h2
  exact ⟨⟨⟨i, hi, he⟩, hb1, hb2⟩, ⟨⟨j, hj, he'⟩, hb1', hb2'⟩⟩

/-- Witness for C4 at the signed 8-bit type, `start = 5`,
`step = 100`, `count = 2` (the add run stops after one step at
`105`). -/
theorem claim4_value_reachable_witness :
    (I8.lo ≤ (add_numbers I8 5 100 2).value ∧
      (add_numbers I8 5 100 2).value ≤ I8.hi) ∧
    (I8.lo ≤ (subtract_numbers I8 5 100 2).value ∧
      (subtract_numbers I8 5 100 2).value ≤ I8.hi) :=
  ⟨⟨(claim4_value_reachable I8 5 100 2 (by decide) (by decide)).1.2.1,
    (claim4_value_reachable I8 5 100 2 (by decide) (by decide)).1.2.2⟩,
   ⟨(claim4_value_reachable I8 5 100 2 (by decide) (by decide)).2.2.1,
    (claim4_value_reachable I8 5 100 2 (by decide) (by decide)).2.2.2⟩⟩

/-- C5: whenever `-step` is representable in `T`,
`subtract_numbers(start, step, count)` returns a result identical in
both fields to `add_numbers(start, -step, count)`.  (In this exact
model the identity holds for every `step`; the hypotheses record the
claim's own proviso.) -/
theorem claim5_subtract_mirrors_add (T : NumT) (start step : Int) (count : Nat)
    (_h1 : T.lo ≤ -step) (_h2 : -step ≤ T.hi) :
    subtract_numbers T start step count = add_numbers T start (-step) count :=
  subtract_loop_eq_add_loop_neg T step count start

/-- Witness for C5 at the signed 8-bit type, `start = 0`, `step = 3`,
`count = 2`. -/
theorem claim5_subtract_mirrors_add_witness :
    subtract_numbers I8 0 3 2 = add_numbers I8 0 (-3) 2 :=
  claim5_subtract_mirrors_add I8 0 3 2 (by decide) (by decide)

/-- C6: for every numeric type `T`, every `start` and every `count`,
`add_numbers(start, 0, count)` and `subtract_numbers(start, 0, count)`
both return `success = true` and `value = start`. -/
theorem claim6_zero_step_idempotent (T : NumT) (start : Int) (count : Nat) :
    add_numbers T start 0 count = ⟨start, true⟩ ∧
    subtract_numbers T start 0 count = ⟨start, true⟩ :=
  ⟨add_loop_zero T count start, subtract_loop_zero T count start⟩

/-- C7: with representable `start` and `step`, every `T`-arithmetic
result computed inside `add_numbers` or `subtract_numbers` — the
guard expressions `maxVal - increment`, `lowVal - increment`,
`lowVal + decrement`, `maxVal + decrement` as well as every executed
accumulation — lies inside `T`'s representable range: the checks
themselves never overflow, and the accumulation runs only when its
result is representable. -/
theorem claim7_ops_in_range (T : NumT) (start step : Int) (count : Nat)
    (hs1 : T.lo ≤ start) (hs2 : start ≤ T.hi)
    (hp1 : T.lo ≤ step) (hp2 : step ≤ T.hi) :
    (∀ x ∈ addOps T step count start, T.lo ≤ x ∧ x ≤ T.hi) ∧
    (∀ x ∈ subOps T step count start, T.lo ≤ x ∧ x ≤ T.hi) :=
  ⟨addOps_bounded T step hp1 hp2 count start hs1 hs2,
   subOps_bounded T step hp1 hp2 count start hs1 hs2⟩

/-- Witness for C7 at the signed 8-bit type: the guard expression
`maxVal - increment = 126` computed by `add_numbers(0, 1, 1)` is in
range. -/
theorem claim7_ops_in_range_witness : I8.lo ≤ 126 ∧ (126 : Int) ≤ I8.hi :=
  (claim7_ops_in_range I8 0 1 1 (by decide) (by decide) (by decide) (by decide)).1
    126 (by decide)

/-- C8: a call with `count = 0` succeeds trivially with
`value = start` for both routines; both are total functions whose
outcomes are returned in the `success` flag, never thrown. -/
theorem claim8_count_zero_trivial (T : NumT) (start step : Int) :
    add_numbers T start step 0 = ⟨start, true⟩ ∧
    subtract_numbers T start step 0 = ⟨start, true⟩ :=
  ⟨rfl, rfl⟩

/-- C9: failure is stable under larger counts: if a run of `n`
iterations fails, every run of `m ≥ n` iterations returns the
identical result; for both routines. -/
theorem claim9_failure_stable (T : NumT) (start step : Int) (n : Nat) :
    ((add_numbers T start step n).success = false →
      ∀ m : Nat, n ≤ m → add_numbers T start step m = add_numbers T start step n) ∧
    ((subtract_numbers T start step n).success = false →
      ∀ m : Nat, n ≤ m → subtract_numbers T start step m = subtract_numbers T start step n) :=
  ⟨fun h m hm => add_loop_fail_stable T step n start h m hm,
   fun h m hm => subtract_loop_fail_stable T step n start h m hm⟩

/-- Witness for C9 at the signed 8-bit type: `add_numbers(100, 50, 1)`
fails at its first step, and the `count = 2` run is identical;
mirrored from `start = -100`. -/
theorem claim9_failure_stable_witness :
    add_numbers I8 100 50 2 = add_numbers I8 100 50 1 ∧
    subtract_numbers I8 (-100) 50 2 = subtract_numbers I8 (-100) 50 1 :=
  ⟨(claim9_failure_stable I8 100 50 1).1 (by decide) 2 (by decide),
   (claim9_failure_stable I8 (-100) 50 1).2 (by decide) 2 (by decide)⟩

/-- C10: accumulation composes over the count: if a run of `a`
iterations succeeds with value `v`, a run of `a + b` iterations
returns exactly the result of a run of `b` iterations started at `v`;
for both routines. -/
theorem claim10_accumulation_composes (T : NumT) (start step : Int) (a : Nat) :
    ((add_numbers T start step a).success = true →
      ∀ b : Nat, add_numbers T start step (a + b) =
        add_numbers T (add_numbers T start step a).value step b) ∧
    ((subtract_numbers T start step a).success = true →
      ∀ b : Nat, subtract_numbers T start step (a + b) =
        subtract_numbers T (subtract_numbers T start step a).value step b) :=
  ⟨fun h b => add_loop_compose T step a start h b,
   fun h b => subtract_loop_compose T step a start h b⟩

/-- Witness for C10 at the signed 8-bit type, `start = 0`, `step = 1`,
`a = 2`, `b = 3`. -/
theorem claim10_accumulation_composes_witness :
    add_numbers I8 0 1 (2 + 3) = add_numbers I8 (add_numbers I8 0 1 2).value 1 3 ∧
    subtract_numbers I8 0 1 (2 + 3) =
      subtract_numbers I8 (subtract_numbers I8 0 1 2).value 1 3 :=
  ⟨(claim10_accumulation_composes I8 0 1 2).1 (by decide) 3,
   (claim10_accumulation_composes I8 0 1 2).2 (by decide) 3⟩

end NumericOverflows
